import Mathlib

set_option maxHeartbeats 1000000

/-
Verification of the 2D pose-graph SLAM optimization back-end
(files src/util.py and src/graph.py of the repository; the helper
modules pose_se2.py, vertex.py, edge_odometry.py and chi2_grad_hess.py
are not part of the given sources and are modelled from the design
document where needed).

Scalars of the source (numpy float64) are modelled as real numbers,
except for the purely structural matrix-reshaping routine, which is
modelled over the rationals so that concrete instances evaluate.
-/

namespace GraphSLAM

/-- Model of numpy machine epsilon for float64 (np.finfo(float).eps). -/
noncomputable def EPS : ℝ := 1 / 2 ^ 52

/-! ## util.py: warp2pi

Source:
```
def warp2pi(angle_rad):
    if(angle_rad > np.pi):
        while(angle_rad > np.pi):
            angle_rad -= 2*np.pi
    elif (angle_rad < -np.pi):
        while(angle_rad < -np.pi):
            angle_rad += 2*np.pi
    return angle_rad
```
-/

/-- The first while loop of warp2pi: subtract 2*pi while the angle exceeds pi. -/
noncomputable def warp2piSub (a : ℝ) : ℝ :=
  if Real.pi < a then warp2piSub (a - 2 * Real.pi) else a
termination_by Nat.ceil ((a - Real.pi) / (2 * Real.pi))
decreasing_by
  have hpi := Real.pi_pos
  have h2 : (0:ℝ) < 2 * Real.pi := by linarith
  have harg : (a - 2 * Real.pi - Real.pi) / (2 * Real.pi)
      = (a - Real.pi) / (2 * Real.pi) - 1 := by
    field_simp
    ring
  set t : ℝ := (a - Real.pi) / (2 * Real.pi)
  have htpos : 0 < t := div_pos (by linarith) h2
  have h1 : 1 ≤ Nat.ceil t := Nat.one_le_ceil_iff.mpr htpos
  have hle : Nat.ceil (t - 1) ≤ Nat.ceil t - 1 := by
    apply Nat.ceil_le.mpr
    have hcast : ((Nat.ceil t - 1 : ℕ) : ℝ) = (Nat.ceil t : ℝ) - 1 := by
      push_cast [h1]
      ring
    rw [hcast]
    have := Nat.le_ceil t
    linarith
  rw [harg]
  omega

/-- The second while loop of warp2pi: add 2*pi while the angle is below -pi. -/
noncomputable def warp2piAdd (a : ℝ) : ℝ :=
  if a < -Real.pi then warp2piAdd (a + 2 * Real.pi) else a
termination_by Nat.ceil ((-Real.pi - a) / (2 * Real.pi))
decreasing_by
  have hpi := Real.pi_pos
  have h2 : (0:ℝ) < 2 * Real.pi := by linarith
  have harg : (-Real.pi - (a + 2 * Real.pi)) / (2 * Real.pi)
      = (-Real.pi - a) / (2 * Real.pi) - 1 := by
    field_simp
    ring
  set t : ℝ := (-Real.pi - a) / (2 * Real.pi)
  have htpos : 0 < t := div_pos (by linarith) h2
  have h1 : 1 ≤ Nat.ceil t := Nat.one_le_ceil_iff.mpr htpos
  have hle : Nat.ceil (t - 1) ≤ Nat.ceil t - 1 := by
    apply Nat.ceil_le.mpr
    have hcast : ((Nat.ceil t - 1 : ℕ) : ℝ) = (Nat.ceil t : ℝ) - 1 := by
      push_cast [h1]
      ring
    rw [hcast]
    have := Nat.le_ceil t
    linarith
  rw [harg]
  omega

/-- Model of util.warp2pi: the two guarded while loops of the source. -/
noncomputable def warp2pi (a : ℝ) : ℝ :=
  if Real.pi < a then warp2piSub a
  else if a < -Real.pi then warp2piAdd a
  else a


/-! ## util.py: upper_triangular_matrix_to_full_matrix

Source:
```
def upper_triangular_matrix_to_full_matrix(arr, n):
    triu0 = np.triu_indices(n, 0)
    triu1 = np.triu_indices(n, 1)
    tril1 = np.tril_indices(n, -1)
    mat = np.zeros((n, n), dtype=np.float64)
    mat[triu0] = arr
    mat[tril1] = mat[triu1]
    return mat
```
Matrices are modelled as functions on pairs of naturals; the scalar type is
the rationals, which keeps the purely structural index bookkeeping decidable.
-/

/-- Row-major scan of the n by n index grid, as numpy.nonzero enumerates a
boolean mask, restricted to the entries where the mask holds. -/
def maskIndices (n : ℕ) (mask : ℕ → ℕ → Bool) : List (ℕ × ℕ) :=
  ((List.range n).flatMap fun r => (List.range n).map fun c => (r, c)).filter
    fun p => mask p.1 p.2

/-- np.triu_indices n k: indices of the upper triangle with offset k. -/
def triuIndices (n k : ℕ) : List (ℕ × ℕ) :=
  maskIndices n fun r c => decide (r + k ≤ c)

/-- np.tril_indices n (-1): indices strictly below the diagonal. -/
def trilIndicesNeg1 (n : ℕ) : List (ℕ × ℕ) :=
  maskIndices n fun r c => decide (c + 1 ≤ r)

/-- Fancy-index assignment mat[idx] = vals: entries are written positionally,
pairing the index list with the value list in order. -/
def setEntries (m : ℕ → ℕ → ℚ) (ps : List ((ℕ × ℕ) × ℚ)) : ℕ → ℕ → ℚ :=
  ps.foldl (fun acc p r c => if r = p.1.1 ∧ c = p.1.2 then p.2 else acc r c) m

/-- Model of util.upper_triangular_matrix_to_full_matrix. -/
def upper_triangular_matrix_to_full_matrix (arr : List ℚ) (n : ℕ) : ℕ → ℕ → ℚ :=
  let m1 := setEntries (fun _ _ => 0) ((triuIndices n 0).zip arr)
  let vals := (triuIndices n 1).map fun p => m1 p.1 p.2
  setEntries m1 ((trilIndicesNeg1 n).zip vals)

/-- The row-major upper-triangle values (diagonal included) of a matrix: the
compact representation that the design document calls upperTriangleOf. -/
def upperTriangleOf (M : ℕ → ℕ → ℚ) (n : ℕ) : List ℚ :=
  (triuIndices n 0).map fun p => M p.1 p.2

/-- Bounded symmetry check for an n by n matrix. -/
def isSymm (M : ℕ → ℕ → ℚ) (n : ℕ) : Bool :=
  (List.range n).all fun r => (List.range n).all fun c => M r c == M c r

/-- A concrete symmetric 4 by 4 rational matrix whose entries 0,3 and 1,2
differ. -/
def M4 : ℕ → ℕ → ℚ :=
  fun r c => (([[1, 2, 3, 7], [2, 4, 5, 8], [3, 5, 6, 9], [7, 8, 9, 10]].getD r []).getD c 0)

/-! ## Pose, Vertex, Graph structure (graph.py together with the helper
modules vertex.py and pose_se2.py; the latter two are not under src/) -/

/-- Modelled from the spec: pose_se2.py is not under src/. A 2D pose is a
point x, y with heading theta (design document section 3, d = 3). -/
structure Pose where
  x : ℝ
  y : ℝ
  theta : ℝ

/-- Modelled from the spec: pose_se2.py is not under src/. Additive
retraction (section 4.2): translation shifted by the first two components of
the tangent step, heading shifted by the third and renormalized with the
angle wrap of util.py. -/
noncomputable def retract (p : Pose) (d0 d1 d2 : ℝ) : Pose :=
  ⟨p.x + d0, p.y + d1, warp2pi (p.theta + d2)⟩

/-- Modelled from the spec: vertex.py is not under src/. A vertex is an id,
a derived index and a mutable pose (design document section 3). -/
structure Vertex where
  id : ℕ
  index : ℕ
  pose : Pose

/-- An edge as far as linking is concerned: the ids of its endpoints and the
resolved vertex references assigned by Graph._link_edges. -/
structure GEdge where
  vertexIds : List ℕ
  vertices : List Vertex

/-- The graph: an ordered vertex list and an edge list. -/
structure Graph where
  vertices : List Vertex
  edges : List GEdge

/-- Python-level errors that the modelled code can raise. -/
inductive PyErr where
  | nameError
  | typeError
  | keyError
deriving DecidableEq

/-- The id-to-index dictionary of Graph._link_edges: iterate over the
vertices in order and let a later vertex with the same id overwrite the
stored index, exactly as the Python dict comprehension does. -/
def idIndexFold (vid : ℕ) : ℕ → List Vertex → Option ℕ → Option ℕ
  | _, [], acc => acc
  | i, v :: rest, acc =>
      idIndexFold vid (i + 1) rest (if v.id = vid then some i else acc)

/-- Lookup of a vertex id in the id-to-index dictionary. -/
def idIndexLookup (vs : List Vertex) (vid : ℕ) : Option ℕ :=
  idIndexFold vid 0 vs none

/-- The subscript self._vertices[id_index_dict[v_id]]: a missing id raises
KeyError, exactly as the Python dict subscript would. -/
def lookupVertex (vs : List Vertex) (vid : ℕ) : Except PyErr Vertex :=
  match idIndexLookup vs vid with
  | some i => Except.ok ((vs.get? i).getD ⟨0, 0, ⟨0, 0, 0⟩⟩)
  | none => Except.error PyErr.keyError

/-- A Python list comprehension over a fallible body: elements are produced
in order and the first raised error propagates. -/
def mapExcept (f : α → Except PyErr β) : List α → Except PyErr (List β)
  | [] => Except.ok []
  | x :: xs =>
      match f x with
      | Except.ok y =>
          match mapExcept f xs with
          | Except.ok ys => Except.ok (y :: ys)
          | Except.error err => Except.error err
      | Except.error err => Except.error err

/-- Resolution of one edge: each of its vertex ids is looked up in the
dictionary and the edge is rebound to the resolved vertices. -/
def resolveEdge (vs : List Vertex) (e : GEdge) : Except PyErr GEdge :=
  match mapExcept (lookupVertex vs) e.vertexIds with
  | Except.ok vlist => Except.ok { e with vertices := vlist }
  | Except.error err => Except.error err

/-- Model of Graph._link_edges: rebuild the id-to-index dictionary, assign
every vertex its index, and rebind every edge to the resolved vertices. -/
def link_edges (g : Graph) : Except PyErr Graph :=
  let vs := g.vertices
  let vs2 := vs.map fun v => { v with index := (idIndexLookup vs v.id).getD 0 }
  match mapExcept (resolveEdge vs2) g.edges with
  | Except.ok es => Except.ok ⟨vs2, es⟩
  | Except.error err => Except.error err

/-- Model of Graph.add_vertex: append a fresh Vertex and relink. There is no
duplicate-id check in the source. -/
def add_vertex (g : Graph) (vid : ℕ) (p : Pose) : Except PyErr Graph :=
  link_edges { g with vertices := g.vertices ++ [⟨vid, 0, p⟩] }

/-- A one-vertex, zero-edge graph whose single vertex has id 0. -/
def g0 : Graph := ⟨[⟨0, 0, ⟨0, 0, 0⟩⟩], []⟩

/-! ## Cost accumulator (chi2_grad_hess.py, not under src/) -/

/-- Modelled from the spec: edge_odometry.py is not under src/. The local
contribution of one edge (design document section 4.3): a chi2 value and the
gradient and Hessian blocks keyed by the edge's endpoint indices i and j. -/
structure Contrib where
  chi2 : ℝ
  i : ℕ
  j : ℕ
  gi : Fin 3 → ℝ
  gj : Fin 3 → ℝ
  Hii : Fin 3 → Fin 3 → ℝ
  Hij : Fin 3 → Fin 3 → ℝ
  Hjj : Fin 3 → Fin 3 → ℝ

/-- Add a 3-vector into a map from vertex index to gradient blocks at one
key, leaving all other keys untouched. -/
noncomputable def addAt (f : ℕ → Fin 3 → ℝ) (k : ℕ) (v : Fin 3 → ℝ) :
    ℕ → Fin 3 → ℝ :=
  fun q t => if q = k then f q t + v t else f q t

/-- Add a 3 by 3 block into a map from index pairs to Hessian blocks at one
key, leaving all other keys untouched. -/
noncomputable def addAt2 (f : ℕ × ℕ → Fin 3 → Fin 3 → ℝ) (k : ℕ × ℕ)
    (B : Fin 3 → Fin 3 → ℝ) : ℕ × ℕ → Fin 3 → Fin 3 → ℝ :=
  fun q a b => if q = k then f q a b + B a b else f q a b

/-- Modelled from the spec: chi2_grad_hess.py is not under src/. The
accumulator of design document section 4.4: a running chi2, a map from
vertex index to gradient contribution and a map from index pairs to Hessian
blocks, both modelled as total functions that are zero off their support. -/
structure Chi2GradHess where
  chi2 : ℝ
  gradient : ℕ → Fin 3 → ℝ
  hessian : ℕ × ℕ → Fin 3 → Fin 3 → ℝ

/-- Modelled from the spec: the identity accumulator (chi2 = 0, empty
gradient map, empty Hessian map). -/
noncomputable def Chi2GradHess.ident : Chi2GradHess :=
  ⟨0, fun _ _ => 0, fun _ _ _ => 0⟩

/-- Modelled from the spec: chi2_grad_hess.py is not under src/. The update
step folds one edge contribution into the accumulator: chi2 adds, the
gradient blocks add at keys i and j, the Hessian blocks add at keys
(i, i), (i, j) and (j, j). -/
noncomputable def Chi2GradHess.update (acc : Chi2GradHess) (c : Contrib) :
    Chi2GradHess where
  chi2 := acc.chi2 + c.chi2
  gradient := addAt (addAt acc.gradient c.i c.gi) c.j c.gj
  hessian :=
    addAt2 (addAt2 (addAt2 acc.hessian (c.i, c.i) c.Hii) (c.i, c.j) c.Hij)
      (c.j, c.j) c.Hjj

/-- The reduce call of Graph._calc_chi2_grad_hess: fold all edge
contributions into the identity accumulator. -/
noncomputable def reduceContribs (l : List Contrib) : Chi2GradHess :=
  l.foldl Chi2GradHess.update Chi2GradHess.ident

/-! ## Materialization of the Hessian
(graph.py, Graph._calc_chi2_grad_hess lines 92 to 103) -/

/-- The 3 by 3 block of a global matrix at block row i, block column j:
rows 3i to 3i+2, columns 3j to 3j+2. -/
noncomputable def blockOf (H : ℕ → ℕ → ℝ) (i j : ℕ) : Fin 3 → Fin 3 → ℝ :=
  fun a b => H (3 * i + a) (3 * j + b)

/-- The slice assignment hessian[3i:3i+3, 3j:3j+3] = B. -/
noncomputable def writeBlock (H : ℕ → ℕ → ℝ) (i j : ℕ)
    (B : Fin 3 → Fin 3 → ℝ) : ℕ → ℕ → ℝ :=
  fun r c =>
    if h : 3 * i ≤ r ∧ r < 3 * i + 3 ∧ 3 * j ≤ c ∧ c < 3 * j + 3 then
      B ⟨r - 3 * i, by omega⟩ ⟨c - 3 * j, by omega⟩
    else H r c

/-- np.transpose on a 3 by 3 block. -/
noncomputable def transposeM (B : Fin 3 → Fin 3 → ℝ) : Fin 3 → Fin 3 → ℝ :=
  fun a b => B b a

/-- One step of the materialization loop: write the block of the current
dict item at its block position, and for an off-diagonal key also write the
transposed block at the mirrored position. -/
noncomputable def hessStep (H : ℕ → ℕ → ℝ)
    (kv : (ℕ × ℕ) × (Fin 3 → Fin 3 → ℝ)) : ℕ → ℕ → ℝ :=
  let H1 := writeBlock H kv.1.1 kv.1.2 kv.2
  if kv.1.1 ≠ kv.1.2 then writeBlock H1 kv.1.2 kv.1.1 (transposeM kv.2) else H1

/-- Model of the Hessian population loop of Graph._calc_chi2_grad_hess:
start from the zero matrix and process the accumulated (block key, block)
items in order. -/
noncomputable def populate_hessian
    (items : List ((ℕ × ℕ) × (Fin 3 → Fin 3 → ℝ))) : ℕ → ℕ → ℝ :=
  items.foldl hessStep fun _ _ => 0

/-! ## Gauge fixing patch (graph.py, Graph.optimize lines 129 to 133) -/

/-- hessian[:3, :] = 0. -/
noncomputable def zeroRows (H : ℕ → ℕ → ℝ) : ℕ → ℕ → ℝ :=
  fun r c => if r < 3 then 0 else H r c

/-- hessian[:, :3] = 0. -/
noncomputable def zeroCols (H : ℕ → ℕ → ℝ) : ℕ → ℕ → ℝ :=
  fun r c => if c < 3 then 0 else H r c

/-- hessian[:3, :3] += np.eye(3). -/
noncomputable def addEye (H : ℕ → ℕ → ℝ) : ℕ → ℕ → ℝ :=
  fun r c =>
    if r < 3 ∧ c < 3 then H r c + (if r = c then 1 else 0) else H r c

/-- The whole Hessian patch of the fix_first_pose branch, in source order. -/
noncomputable def patchH (H : ℕ → ℕ → ℝ) : ℕ → ℕ → ℝ :=
  addEye (zeroCols (zeroRows H))

/-- gradient[:3] = 0. -/
noncomputable def patchG (g : ℕ → ℝ) : ℕ → ℝ :=
  fun k => if k < 3 then 0 else g k

/-! ## The Gauss-Newton loop (graph.py, Graph.optimize) -/

/-- The evaluated global system of one iteration: the fields that
Graph._calc_chi2_grad_hess stores on the graph. -/
structure SysEval where
  chi2 : ℝ
  grad : ℕ → ℝ
  hess : ℕ → ℕ → ℝ

/-- Finite row-times-vector product of the global system. -/
noncomputable def mulVec (N : ℕ) (H : ℕ → ℕ → ℝ) (x : ℕ → ℝ) (r : ℕ) : ℝ :=
  ∑ c ∈ Finset.range N, H r c * x c

/-- The first three rows of a global matrix form the top rows of an identity
block continued by zeros: the shape the gauge-fix patch produces. -/
def FirstRowsId (H : ℕ → ℕ → ℝ) : Prop :=
  ∀ r c, r < 3 → H r c = if c = r then 1 else 0

/-- The pose update of one iteration: vertex k is retracted by the slice
dx[3k .. 3k+2] of the solver step, as the zip with np.split does. -/
noncomputable def retractAll (dx : ℕ → ℝ) : ℕ → List Pose → List Pose
  | _, [] => []
  | k, p :: rest =>
      retract p (dx (3 * k)) (dx (3 * k + 1)) (dx (3 * k + 2))
        :: retractAll dx (k + 1) rest

/-- One iteration tail after the convergence check: optionally patch the
system, call the solver on (hessian, -gradient) and retract every pose. -/
noncomputable def iterStep (solve : (ℕ → ℕ → ℝ) → (ℕ → ℝ) → ℕ → ℝ)
    (fix : Bool) (s : SysEval) (ps : List Pose) : List Pose :=
  let H := if fix then patchH s.hess else s.hess
  let g := if fix then patchG s.grad else s.grad
  retractAll (solve H fun k => -(g k)) 0 ps

/-- What the iteration loop of Graph.optimize can end in: an early converged
return, or falling off the end of the range. -/
inductive LoopOut where
  | converged (ps : List Pose) (chi2 : ℝ) (calls : ℕ)
  | exhausted (ps : List Pose) (prev : ℝ) (calls : ℕ)

/-- The pose list carried by a loop outcome. -/
def LoopOut.poses : LoopOut → List Pose
  | .converged ps _ _ => ps
  | .exhausted ps _ _ => ps

/-- Model of the for-loop of Graph.optimize. The per-iteration evaluation
and the external sparse solver are parameters; fuel counts the remaining
iterations, i is the Python loop index, prev the previous chi2 and calls the
number of solver invocations so far. -/
noncomputable def optLoop (assemble : List Pose → SysEval)
    (solve : (ℕ → ℕ → ℝ) → (ℕ → ℝ) → ℕ → ℝ) (tol : ℝ) (fix : Bool) :
    ℕ → ℕ → ℝ → List Pose → ℕ → LoopOut
  | 0, _, prev, ps, calls => LoopOut.exhausted ps prev calls
  | fuel + 1, i, prev, ps, calls =>
      let s := assemble ps
      if 0 < i ∧ s.chi2 < prev ∧ (prev - s.chi2) / (prev + EPS) < tol then
        LoopOut.converged ps s.chi2 calls
      else
        optLoop assemble solve tol fix fuel (i + 1) s.chi2
          (iterStep solve fix s ps) (calls + 1)

/-- Model of Graph.calc_chi2, called after the loop: Python sums the
per-edge 1 by 1 chi2 matrices and indexes the sum with [0, 0]. With no
edges the sum of the empty generator is the integer 0 and the indexing
raises TypeError. -/
def calc_chi2 (edgeChi2Values : List ℝ) : Except PyErr ℝ :=
  match edgeChi2Values with
  | [] => Except.error PyErr.typeError
  | l => Except.ok l.sum

/-- The outcome of one Graph.optimize call. -/
structure OptResult where
  poses : List Pose
  chi2 : ℝ
  solverCalls : ℕ
  converged : Bool
  err : Option PyErr

/-- Model of Graph.optimize: run the loop from i = 0 with prev = -1; on an
early return report convergence; otherwise evaluate calc_chi2 (which can
raise TypeError on an edgeless graph) and then print the final report line,
which reads the loop variable i and raises NameError when the range was
empty, i.e. when maxIter = 0. -/
noncomputable def optimize (assemble : List Pose → SysEval)
    (edgeChi2s : List Pose → List ℝ)
    (solve : (ℕ → ℕ → ℝ) → (ℕ → ℝ) → ℕ → ℝ)
    (tol : ℝ) (maxIter : ℕ) (fix : Bool) (ps : List Pose) : OptResult :=
  match optLoop assemble solve tol fix maxIter 0 (-1) ps 0 with
  | LoopOut.converged ps2 c calls => ⟨ps2, c, calls, true, none⟩
  | LoopOut.exhausted ps2 prev calls =>
      match calc_chi2 (edgeChi2s ps2) with
      | Except.error e => ⟨ps2, prev, calls, false, some e⟩
      | Except.ok c =>
          if maxIter = 0 then ⟨ps2, c, calls, false, some PyErr.nameError⟩
          else ⟨ps2, c, calls, false, none⟩

/-- The per-iteration system of a graph with a fixed edge set: fold the edge
contributions and materialize. Modelled from the spec: the dense gradient
reading of the accumulated map, each vertex occupying a contiguous
3-slice, and the block-symmetric reading of the accumulated Hessian map
(chi2_grad_hess.py is not under src/). -/
noncomputable def assembleOfEdges (ec : List Pose → List Contrib)
    (ps : List Pose) : SysEval :=
  let acc := reduceContribs (ec ps)
  { chi2 := acc.chi2
    grad := fun k => acc.gradient (k / 3) ⟨k % 3, by omega⟩
    hess := fun r c =>
      acc.hessian (r / 3, c / 3) ⟨r % 3, by omega⟩ ⟨c % 3, by omega⟩ +
        if r / 3 = c / 3 then 0
        else acc.hessian (c / 3, r / 3) ⟨c % 3, by omega⟩ ⟨r % 3, by omega⟩ }

/-! ## Concrete instances used in closed statements -/

/-- A trivial evaluation whose system is identically zero. -/
noncomputable def asm0 : List Pose → SysEval :=
  fun _ => ⟨0, fun _ => 0, fun _ _ => 0⟩

/-- A solver that returns the right-hand side unchanged; it solves every
system whose matrix has identity rows. -/
noncomputable def solve0 : (ℕ → ℕ → ℝ) → (ℕ → ℝ) → ℕ → ℝ :=
  fun _ g => g

/-- A single pose at the origin. -/
noncomputable def ps0 : List Pose := [⟨0, 0, 0⟩]

/-- A concrete edge contribution between vertices 0 and 1. -/
noncomputable def cA : Contrib :=
  ⟨1, 0, 1, fun _ => 1, fun _ => 2, fun _ _ => 1, fun _ _ => 0, fun _ _ => 3⟩

/-- A second concrete edge contribution between vertices 1 and 2. -/
noncomputable def cB : Contrib :=
  ⟨2, 1, 2, fun _ => 5, fun _ => 1, fun _ _ => 2, fun _ _ => 1, fun _ _ => 1⟩

/-- A concrete 3 by 3 block. -/
noncomputable def B0 : Fin 3 → Fin 3 → ℝ :=
  fun a b => (a : ℝ) + 2 * (b : ℝ)

/-! # Theorems -/

/-! ## Properties of the angle wrap -/

/-- Joint specification of the subtracting loop, proved by strong induction on
the number of remaining iterations. -/
lemma warp2piSub_spec : ∀ n : ℕ, ∀ a : ℝ,
    Nat.ceil ((a - Real.pi) / (2 * Real.pi)) ≤ n →
    warp2piSub a ≤ Real.pi ∧
    (Real.pi < a → -Real.pi < warp2piSub a) ∧
    ∃ k : ℤ, warp2piSub a = a - 2 * Real.pi * k := by
  intro n
  induction n with
  | zero =>
    intro a hn
    have hpi := Real.pi_pos
    have h2 : (0:ℝ) < 2 * Real.pi := by linarith
    have hnotlt : ¬ Real.pi < a := by
      intro hlt
      have htpos : 0 < (a - Real.pi) / (2 * Real.pi) :=
        div_pos (by linarith) h2
      have := Nat.one_le_ceil_iff.mpr htpos
      omega
    rw [warp2piSub, if_neg hnotlt]
    refine ⟨le_of_not_lt hnotlt, fun h => absurd h hnotlt, 0, by push_cast; ring⟩
  | succ n ih =>
    intro a hn
    have hpi := Real.pi_pos
    have h2 : (0:ℝ) < 2 * Real.pi := by linarith
    rw [warp2piSub]
    by_cases hlt : Real.pi < a
    · rw [if_pos hlt]
      have hmeas : Nat.ceil ((a - 2 * Real.pi - Real.pi) / (2 * Real.pi)) ≤ n := by
        have harg : (a - 2 * Real.pi - Real.pi) / (2 * Real.pi)
            = (a - Real.pi) / (2 * Real.pi) - 1 := by
          field_simp
          ring
        have htpos : 0 < (a - Real.pi) / (2 * Real.pi) :=
          div_pos (by linarith) h2
        have h1 : 1 ≤ Nat.ceil ((a - Real.pi) / (2 * Real.pi)) :=
          Nat.one_le_ceil_iff.mpr htpos
        have hle : Nat.ceil ((a - Real.pi) / (2 * Real.pi) - 1)
            ≤ Nat.ceil ((a - Real.pi) / (2 * Real.pi)) - 1 := by
          apply Nat.ceil_le.mpr
          have hcast : ((Nat.ceil ((a - Real.pi) / (2 * Real.pi)) - 1 : ℕ) : ℝ)
              = (Nat.ceil ((a - Real.pi) / (2 * Real.pi)) : ℝ) - 1 := by
            push_cast [h1]
            ring
          rw [hcast]
          have := Nat.le_ceil ((a - Real.pi) / (2 * Real.pi))
          linarith
        rw [harg]
        omega
      obtain ⟨hle, hgt, k, hk⟩ := ih (a - 2 * Real.pi) hmeas
      refine ⟨hle, fun _ => ?_, ⟨k + 1, by push_cast [hk]; ring⟩⟩
      by_cases hlt2 : Real.pi < a - 2 * Real.pi
      · exact hgt hlt2
      · have : warp2piSub (a - 2 * Real.pi) = a - 2 * Real.pi := by
          rw [warp2piSub, if_neg hlt2]
        rw [this]
        linarith
    · rw [if_neg hlt]
      refine ⟨le_of_not_lt hlt, fun h => absurd h hlt, 0, by push_cast; ring⟩

/-- Joint specification of the adding loop. -/
lemma warp2piAdd_spec : ∀ n : ℕ, ∀ a : ℝ,
    Nat.ceil ((-Real.pi - a) / (2 * Real.pi)) ≤ n →
    -Real.pi ≤ warp2piAdd a ∧
    (a < -Real.pi → warp2piAdd a < Real.pi) ∧
    ∃ k : ℤ, warp2piAdd a = a + 2 * Real.pi * k := by
  intro n
  induction n with
  | zero =>
    intro a hn
    have hpi := Real.pi_pos
    have h2 : (0:ℝ) < 2 * Real.pi := by linarith
    have hnotlt : ¬ a < -Real.pi := by
      intro hlt
      have htpos : 0 < (-Real.pi - a) / (2 * Real.pi) :=
        div_pos (by linarith) h2
      have := Nat.one_le_ceil_iff.mpr htpos
      omega
    rw [warp2piAdd, if_neg hnotlt]
    refine ⟨le_of_not_lt hnotlt, fun h => absurd h hnotlt, 0, by push_cast; ring⟩
  | succ n ih =>
    intro a hn
    have hpi := Real.pi_pos
    have h2 : (0:ℝ) < 2 * Real.pi := by linarith
    rw [warp2piAdd]
    by_cases hlt : a < -Real.pi
    · rw [if_pos hlt]
      have hmeas : Nat.ceil ((-Real.pi - (a + 2 * Real.pi)) / (2 * Real.pi)) ≤ n := by
        have harg : (-Real.pi - (a + 2 * Real.pi)) / (2 * Real.pi)
            = (-Real.pi - a) / (2 * Real.pi) - 1 := by
          field_simp
          ring
        have htpos : 0 < (-Real.pi - a) / (2 * Real.pi) :=
          div_pos (by linarith) h2
        have h1 : 1 ≤ Nat.ceil ((-Real.pi - a) / (2 * Real.pi)) :=
          Nat.one_le_ceil_iff.mpr htpos
        have hle : Nat.ceil ((-Real.pi - a) / (2 * Real.pi) - 1)
            ≤ Nat.ceil ((-Real.pi - a) / (2 * Real.pi)) - 1 := by
          apply Nat.ceil_le.mpr
          have hcast : ((Nat.ceil ((-Real.pi - a) / (2 * Real.pi)) - 1 : ℕ) : ℝ)
              = (Nat.ceil ((-Real.pi - a) / (2 * Real.pi)) : ℝ) - 1 := by
            push_cast [h1]
            ring
          rw [hcast]
          have := Nat.le_ceil ((-Real.pi - a) / (2 * Real.pi))
          linarith
        rw [harg]
        omega
      obtain ⟨hge, hltpi, k, hk⟩ := ih (a + 2 * Real.pi) hmeas
      refine ⟨hge, fun _ => ?_, ⟨k + 1, by push_cast [hk]; ring⟩⟩
      by_cases hlt2 : a + 2 * Real.pi < -Real.pi
      · exact hltpi hlt2
      · have : warp2piAdd (a + 2 * Real.pi) = a + 2 * Real.pi := by
          rw [warp2piAdd, if_neg hlt2]
        rw [this]
        linarith
    · rw [if_neg hlt]
      refine ⟨le_of_not_lt hlt, fun h => absurd h hlt, 0, by push_cast; ring⟩

/-- warp2pi is the identity on the closed interval from -pi to pi. -/
lemma warp2pi_eq_self {a : ℝ} (h1 : -Real.pi ≤ a) (h2 : a ≤ Real.pi) :
    warp2pi a = a := by
  rw [warp2pi, if_neg (not_lt.mpr h2), if_neg (not_lt.mpr h1)]

/-- C6 counterexample: at a = -pi the source returns -pi itself, which is
not in the claimed half-open interval (-pi, pi]. -/
theorem C6_warp2pi_at_neg_pi_counterexample :
    warp2pi (-Real.pi) = -Real.pi ∧
    ¬ (warp2pi (-Real.pi) ∈ Set.Ioc (-Real.pi) Real.pi) := by
  have hpi := Real.pi_pos
  have h : warp2pi (-Real.pi) = -Real.pi :=
    warp2pi_eq_self le_rfl (by linarith)
  refine ⟨h, ?_⟩
  rw [h, Set.mem_Ioc]
  simp

/-- C6 amended: for every real a, warp2pi a lies in the closed interval
from -pi to pi (the endpoint -pi is attainable, so the interval is not the
half-open (-pi, pi]), and the result differs from a by an integer multiple
of 2*pi. This holds for arbitrarily large absolute values of a. -/
theorem C6_warp2pi_range_and_congruence (a : ℝ) :
    -Real.pi ≤ warp2pi a ∧ warp2pi a ≤ Real.pi ∧
    ∃ k : ℤ, warp2pi a = a + 2 * Real.pi * k := by
  have hpi := Real.pi_pos
  rw [warp2pi]
  by_cases h1 : Real.pi < a
  · rw [if_pos h1]
    obtain ⟨hle, hgt, k, hk⟩ :=
      warp2piSub_spec (Nat.ceil ((a - Real.pi) / (2 * Real.pi))) a le_rfl
    exact ⟨le_of_lt (hgt h1), hle, ⟨-k, by push_cast [hk]; ring⟩⟩
  · rw [if_neg h1]
    by_cases h2 : a < -Real.pi
    · rw [if_pos h2]
      obtain ⟨hge, hlt, k, hk⟩ :=
        warp2piAdd_spec (Nat.ceil ((-Real.pi - a) / (2 * Real.pi))) a le_rfl
      exact ⟨hge, le_of_lt (hlt h2), ⟨k, by push_cast [hk]; ring⟩⟩
    · rw [if_neg h2]
      exact ⟨le_of_not_lt h2, le_of_not_lt h1, ⟨0, by push_cast; ring⟩⟩

/-! ## The compact-to-full matrix reconstruction -/

/-- C8: the round-trip law fails at n = 4. The positional pairing of
np.tril_indices(4, -1) with np.triu_indices(4, 1) is not the transpose
pairing: the reconstructed matrix picks up the value of M4 at (0, 3) in
entry (2, 1) instead of the value at (1, 2), so the reconstruction of the
compact form of the symmetric matrix M4 differs from M4. -/
theorem C8_roundtrip_fails_at_n4 :
    isSymm M4 4 = true ∧
    upper_triangular_matrix_to_full_matrix (upperTriangleOf M4 4) 4 2 1 = 7 ∧
    M4 2 1 = 5 ∧
    upper_triangular_matrix_to_full_matrix (upperTriangleOf M4 4) 4 2 1 ≠ M4 2 1 := by
  refine ⟨by decide, by decide, by decide, by decide⟩

/-! ## Duplicate vertex ids in add_vertex -/

/-- The id-to-index fold is some whenever the sought id occurs in the list
or the accumulator is already some. -/
lemma idIndexFold_isSome (vid : ℕ) : ∀ (vs : List Vertex) (i : ℕ) (acc : Option ℕ),
    (vid ∈ vs.map Vertex.id ∨ acc.isSome) → (idIndexFold vid i vs acc).isSome := by
  intro vs
  induction vs with
  | nil =>
    intro i acc h
    rcases h with h | h
    · simp at h
    · simpa [idIndexFold] using h
  | cons v rest ih =>
    intro i acc h
    rw [idIndexFold]
    apply ih
    by_cases hv : v.id = vid
    · right
      simp [hv]
    · rcases h with h | h
      · left
        rw [List.map_cons] at h
        rcases List.mem_cons.mp h with h1 | h1
        · exact absurd h1.symm hv
        · exact h1
      · right
        simpa [hv] using h

/-- Looking up a present id yields a vertex, not a KeyError. -/
lemma lookupVertex_ok {vs : List Vertex} {w : ℕ} (h : w ∈ vs.map Vertex.id) :
    ∃ v, lookupVertex vs w = Except.ok v := by
  have hs : (idIndexLookup vs w).isSome :=
    idIndexFold_isSome w vs 0 none (Or.inl h)
  rcases Option.isSome_iff_exists.mp hs with ⟨i, hi⟩
  exact ⟨_, by rw [lookupVertex, hi]⟩

/-- Resolving a list of ids succeeds when every id occurs in the vertex
list. -/
lemma mapExcept_lookupVertex_ok (vs : List Vertex) : ∀ (ws : List ℕ),
    (∀ w ∈ ws, w ∈ vs.map Vertex.id) →
    ∃ vlist, mapExcept (lookupVertex vs) ws = Except.ok vlist := by
  intro ws
  induction ws with
  | nil => intro _; exact ⟨[], rfl⟩
  | cons w rest ih =>
    intro h
    obtain ⟨v, hv⟩ := lookupVertex_ok (h w (List.mem_cons_self w rest))
    obtain ⟨vlist, hrest⟩ := ih fun x hx => h x (List.mem_cons_of_mem w hx)
    refine ⟨v :: vlist, ?_⟩
    rw [mapExcept, hv, hrest]

/-- Resolving one edge succeeds when all its vertex ids are present. -/
lemma resolveEdge_ok {vs : List Vertex} {e : GEdge}
    (h : ∀ w ∈ e.vertexIds, w ∈ vs.map Vertex.id) :
    ∃ e2, resolveEdge vs e = Except.ok e2 := by
  obtain ⟨vlist, hm⟩ := mapExcept_lookupVertex_ok vs e.vertexIds h
  exact ⟨_, by rw [resolveEdge, hm]⟩

/-- Resolving all edges succeeds when all their vertex ids are present. -/
lemma mapExcept_resolveEdge_ok (vs : List Vertex) : ∀ (es : List GEdge),
    (∀ e ∈ es, ∀ w ∈ e.vertexIds, w ∈ vs.map Vertex.id) →
    ∃ es2, mapExcept (resolveEdge vs) es = Except.ok es2 := by
  intro es
  induction es with
  | nil => intro _; exact ⟨[], rfl⟩
  | cons e rest ih =>
    intro h
    obtain ⟨e2, he⟩ := resolveEdge_ok (h e (List.mem_cons_self e rest))
    obtain ⟨es2, hrest⟩ := ih fun x hx => h x (List.mem_cons_of_mem e hx)
    refine ⟨e2 :: es2, ?_⟩
    rw [mapExcept, he, hrest]

/-- Reindexing a vertex does not change its id. -/
lemma map_id_reindex (vs ws : List Vertex) :
    (vs.map fun v => { v with index := (idIndexLookup ws v.id).getD 0 }).map
        Vertex.id = vs.map Vertex.id := by
  induction vs with
  | nil => rfl
  | cons v rest ih => simp [ih]

/-- When the last vertex of the list carries the sought id, the dict fold
returns its position: the overwrite semantics keep the last occurrence. -/
lemma idIndexFold_append_last (vid : ℕ) (w : Vertex) (hw : w.id = vid) :
    ∀ (xs : List Vertex) (i : ℕ) (acc : Option ℕ),
      idIndexFold vid i (xs ++ [w]) acc = some (i + xs.length) := by
  intro xs
  induction xs with
  | nil =>
    intro i acc
    simp [idIndexFold, hw]
  | cons x xs ih =>
    intro i acc
    rw [List.cons_append, idIndexFold, ih (i + 1)]
    congr 1
    simp [List.length_cons]
    omega

/-- The dict fold only looks at ids, so a map that preserves ids does not
change it. -/
lemma idIndexFold_map_id_invariant (vid : ℕ) (f : Vertex → Vertex)
    (hf : ∀ v, (f v).id = v.id) :
    ∀ (xs : List Vertex) (i : ℕ) (acc : Option ℕ),
      idIndexFold vid i (xs.map f) acc = idIndexFold vid i xs acc := by
  intro xs
  induction xs with
  | nil => intro i acc; rfl
  | cons x xs ih =>
    intro i acc
    rw [List.map_cons, idIndexFold, idIndexFold, hf x]
    exact ih _ _

/-- C9 counterexample: on a graph that already has a vertex with id 0,
add_vertex with id 0 returns successfully (no DuplicateId error) and the
vertex collection grows to two vertices that share the id. -/
theorem C9_add_vertex_duplicate_counterexample :
    (add_vertex g0 0 ⟨1, 0, 0⟩).map (fun g => g.vertices.map Vertex.id)
      = Except.ok [0, 0] := by
  rfl

/-- C9 amended: add_vertex performs no duplicate-id check. Adding a vertex
whose id is already present appends it and relinks without error (provided
the existing edges reference present ids); the id sequence of the vertex
collection is the old one extended by the duplicate id, the rebuilt
id-to-index dictionary maps the shared id to the index of its last
occurrence (the appended position), and every vertex carrying that id
receives that index. -/
theorem C9_add_vertex_duplicate_appends (g : Graph) (vid : ℕ) (p : Pose)
    (hdup : vid ∈ g.vertices.map Vertex.id)
    (hlink : ∀ e ∈ g.edges, ∀ w ∈ e.vertexIds, w ∈ g.vertices.map Vertex.id) :
    ∃ g2, add_vertex g vid p = Except.ok g2 ∧
      g2.vertices.map Vertex.id = g.vertices.map Vertex.id ++ [vid] ∧
      idIndexLookup g2.vertices vid = some g.vertices.length ∧
      ∀ v ∈ g2.vertices, v.id = vid → v.index = g.vertices.length := by
  rw [add_vertex, link_edges]
  have hids : (g.vertices ++ [⟨vid, 0, p⟩] : List Vertex).map Vertex.id
      = g.vertices.map Vertex.id ++ [vid] := by
    simp
  set vsNew : List Vertex := g.vertices ++ [⟨vid, 0, p⟩] with hvsNew
  set vs2 : List Vertex :=
    vsNew.map fun v => { v with index := (idIndexLookup vsNew v.id).getD 0 }
    with hvs2
  have hids2 : vs2.map Vertex.id = g.vertices.map Vertex.id ++ [vid] := by
    rw [hvs2, map_id_reindex, hids]
  have hlookNew : idIndexLookup vsNew vid = some g.vertices.length := by
    rw [hvsNew, idIndexLookup,
      idIndexFold_append_last vid ⟨vid, 0, p⟩ rfl g.vertices 0 none]
    simp
  have hlook2 : idIndexLookup vs2 vid = some g.vertices.length := by
    rw [hvs2, idIndexLookup,
      idIndexFold_map_id_invariant vid
        (fun v => { v with index := (idIndexLookup vsNew v.id).getD 0 })
        (fun v => rfl) vsNew 0 none]
    exact hlookNew
  have hindex : ∀ v ∈ vs2, v.id = vid → v.index = g.vertices.length := by
    intro v hv hvid
    rw [hvs2] at hv
    obtain ⟨u, hu, he⟩ := List.mem_map.mp hv
    have huid : u.id = vid := by
      rw [← hvid, ← he]
    rw [← he]
    show (idIndexLookup vsNew u.id).getD 0 = g.vertices.length
    rw [huid, hlookNew]
    rfl
  have hmem : ∀ e ∈ g.edges, ∀ w ∈ e.vertexIds, w ∈ vs2.map Vertex.id := by
    intro e he w hw
    rw [hids2]
    exact List.mem_append_left _ (hlink e he w hw)
  obtain ⟨es2, hes⟩ := mapExcept_resolveEdge_ok vs2 g.edges hmem
  refine ⟨⟨vs2, es2⟩, ?_, hids2, hlook2, hindex⟩
  simp only []
  rw [hes]

/-- C9 witness: the amended statement applied to the concrete one-vertex
graph g0, whose vertex already carries id 0. -/
theorem C9_add_vertex_duplicate_appends_witness :
    (0 ∈ g0.vertices.map Vertex.id) ∧
    (∀ e ∈ g0.edges, ∀ w ∈ e.vertexIds, w ∈ g0.vertices.map Vertex.id) ∧
    ∃ g2, add_vertex g0 0 ⟨1, 0, 0⟩ = Except.ok g2 ∧
      g2.vertices.map Vertex.id = g0.vertices.map Vertex.id ++ [0] ∧
      idIndexLookup g2.vertices 0 = some g0.vertices.length ∧
      ∀ v ∈ g2.vertices, v.id = 0 → v.index = g0.vertices.length :=
  ⟨by simp [g0], by simp [g0],
    C9_add_vertex_duplicate_appends g0 0 ⟨1, 0, 0⟩ (by simp [g0]) (by simp [g0])⟩

/-! ## The gauge-fix patch -/

/-- C3: after the fix_first_pose patch the diagonal 3 by 3 block of the
Hessian is the identity, the rest of the first block row and block column
is zero, every other entry is unchanged, and the first three gradient
entries are zero with the rest unchanged; with the fix enabled the
iteration step hands exactly the patched system to the solver before
retracting. -/
theorem C3_patch_shape (H : ℕ → ℕ → ℝ) (g : ℕ → ℝ) :
    (∀ r c, patchH H r c =
      if r < 3 ∧ c < 3 then (if r = c then 1 else 0)
      else if r < 3 ∨ c < 3 then 0 else H r c) ∧
    (∀ k, patchG g k = if k < 3 then 0 else g k) ∧
    (∀ (solve : (ℕ → ℕ → ℝ) → (ℕ → ℝ) → ℕ → ℝ) (s : SysEval)
        (ps : List Pose),
      iterStep solve true s ps =
        retractAll (solve (patchH s.hess) fun k => -(patchG s.grad k)) 0 ps) := by
  refine ⟨?_, fun k => rfl, fun solve s ps => rfl⟩
  intro r c
  simp only [patchH, addEye, zeroCols, zeroRows]
  by_cases hr : r < 3 <;> by_cases hc : c < 3 <;> simp [hr, hc]

/-! ## Order-independence of the accumulator fold -/

/-- Folding two contributions commutes: every field is a sum of real
numbers added at fixed keys. -/
lemma update_comm (acc : Chi2GradHess) (c c2 : Contrib) :
    (acc.update c).update c2 = (acc.update c2).update c := by
  simp only [Chi2GradHess.update, Chi2GradHess.mk.injEq]
  refine ⟨by ring, ?_, ?_⟩
  · funext q t
    simp only [addAt]
    split_ifs <;> ring
  · funext q a b
    simp only [addAt2]
    split_ifs <;> ring

/-- A left fold of the accumulator update is invariant under permutation of
the contribution list, from any starting accumulator. -/
lemma foldl_update_perm {l₁ l₂ : List Contrib} (h : l₁.Perm l₂) :
    ∀ acc : Chi2GradHess,
      l₁.foldl Chi2GradHess.update acc = l₂.foldl Chi2GradHess.update acc := by
  induction h with
  | nil => intro acc; rfl
  | cons x _ ih => intro acc; simp only [List.foldl_cons]; exact ih _
  | swap x y l => intro acc; simp only [List.foldl_cons]; rw [update_comm]
  | trans _ _ ih1 ih2 => intro acc; rw [ih1, ih2]

/-- C4: the per-edge accumulation is an order-independent fold with the
identity accumulator (chi2 = 0, empty gradient map, empty Hessian map):
any permutation of the contributions reduces to the same chi2, gradient
map and Hessian map, the empty fold is the identity, and consecutive
updates commute. -/
theorem C4_accumulator_order_independent (l₁ l₂ : List Contrib)
    (h : l₁.Perm l₂) :
    reduceContribs l₁ = reduceContribs l₂ ∧
    reduceContribs [] = Chi2GradHess.ident ∧
    ∀ (acc : Chi2GradHess) (c c2 : Contrib),
      (acc.update c).update c2 = (acc.update c2).update c :=
  ⟨foldl_update_perm h Chi2GradHess.ident, rfl,
    fun acc c c2 => update_comm acc c c2⟩

/-- C4 witness: the fold over the two concrete contributions agrees with
the fold over their transposition. -/
theorem C4_accumulator_order_independent_witness :
    ([cA, cB].Perm [cB, cA]) ∧
    reduceContribs [cA, cB] = reduceContribs [cB, cA] :=
  ⟨List.Perm.swap cB cA [],
    (C4_accumulator_order_independent [cA, cB] [cB, cA]
      (List.Perm.swap cB cA [])).1⟩

/-! ## Placement and mirroring of Hessian blocks -/

/-- Reading back the block just written. -/
lemma blockOf_writeBlock_same (H : ℕ → ℕ → ℝ) (i j : ℕ)
    (B : Fin 3 → Fin 3 → ℝ) : blockOf (writeBlock H i j B) i j = B := by
  funext a b
  rcases a with ⟨av, ha⟩
  rcases b with ⟨bv, hb⟩
  simp only [blockOf, writeBlock]
  rw [dif_pos (by omega)]
  simp only [show 3 * i + av - 3 * i = av from by omega,
    show 3 * j + bv - 3 * j = bv from by omega]

/-- Writing one block leaves every other block unchanged. -/
lemma blockOf_writeBlock_ne (H : ℕ → ℕ → ℝ) (i j : ℕ)
    (B : Fin 3 → Fin 3 → ℝ) (i2 j2 : ℕ) (hne : (i2, j2) ≠ (i, j)) :
    blockOf (writeBlock H i j B) i2 j2 = blockOf H i2 j2 := by
  funext a b
  rcases a with ⟨av, ha⟩
  rcases b with ⟨bv, hb⟩
  simp only [blockOf, writeBlock]
  rw [dif_neg]
  intro hcond
  obtain ⟨h1, h2, h3, h4⟩ := hcond
  refine hne ?_
  have hi : i2 = i := by omega
  have hj : j2 = j := by omega
  rw [hi, hj]

/-- Folding items that never touch the block position (i, j), directly or
through their mirror, leaves that block unchanged. -/
lemma foldl_hessStep_untouched :
    ∀ (items : List ((ℕ × ℕ) × (Fin 3 → Fin 3 → ℝ))) (H : ℕ → ℕ → ℝ) (i j : ℕ),
      (∀ kv ∈ items, kv.1 ≠ (i, j) ∧ kv.1 ≠ (j, i)) →
      blockOf (items.foldl hessStep H) i j = blockOf H i j := by
  intro items
  induction items with
  | nil => intro H i j _; rfl
  | cons kv rest ih =>
    intro H i j h
    rw [List.foldl_cons,
      ih (hessStep H kv) i j fun x hx => h x (List.mem_cons_of_mem kv hx)]
    obtain ⟨h1, h2⟩ := h kv (List.mem_cons_self kv rest)
    simp only [hessStep]
    by_cases hd : kv.1.1 ≠ kv.1.2
    · rw [if_pos hd]
      rw [blockOf_writeBlock_ne _ _ _ _ i j ?hm, blockOf_writeBlock_ne _ _ _ _ i j ?hs]
      case hs =>
        intro he
        apply h1
        rw [Prod.mk.injEq] at he
        rw [← Prod.mk.eta (p := kv.1), ← he.1, ← he.2]
      case hm =>
        intro he
        apply h2
        rw [Prod.mk.injEq] at he
        rw [← Prod.mk.eta (p := kv.1), he.1, he.2]
    · rw [if_neg hd]
      rw [blockOf_writeBlock_ne _ _ _ _ i j]
      intro he
      apply h1
      rw [Prod.mk.injEq] at he
      rw [← Prod.mk.eta (p := kv.1), ← he.1, ← he.2]

/-- Writing the item (k, B) and then folding items that do not touch k or
its mirror leaves block k equal to B and, off the diagonal, block swap k
equal to the transpose of B. -/
lemma populate_hessian_aux :
    ∀ (items : List ((ℕ × ℕ) × (Fin 3 → Fin 3 → ℝ))) (H : ℕ → ℕ → ℝ)
      (k : ℕ × ℕ) (B : Fin 3 → Fin 3 → ℝ),
      ((items.map Prod.fst).Pairwise fun u v => u ≠ v ∧ u ≠ (v.2, v.1)) →
      (k, B) ∈ items →
      blockOf (items.foldl hessStep H) k.1 k.2 = B ∧
      (k.1 ≠ k.2 → blockOf (items.foldl hessStep H) k.2 k.1 = transposeM B) := by
  intro items
  induction items with
  | nil => intro H k B _ hmem; simp at hmem
  | cons kv rest ih =>
    intro H k B hpw hmem
    rw [List.map_cons, List.pairwise_cons] at hpw
    obtain ⟨hhead, hrest⟩ := hpw
    rw [List.foldl_cons]
    rcases List.mem_cons.mp hmem with he | hmem2
    · have hkv : kv = (k, B) := he.symm
      subst hkv
      have huntouch : ∀ x ∈ rest, x.1 ≠ (k.1, k.2) ∧ x.1 ≠ (k.2, k.1) := by
        intro x hx
        have hx2 := hhead x.1 (List.mem_map_of_mem Prod.fst hx)
        constructor
        · intro he2
          exact hx2.1 (by rw [he2, Prod.mk.eta])
        · intro he2
          exact hx2.2 (by rw [he2])
      have huntouch2 : ∀ x ∈ rest, x.1 ≠ (k.2, k.1) ∧ x.1 ≠ (k.1, k.2) :=
        fun x hx => ⟨(huntouch x hx).2, (huntouch x hx).1⟩
      constructor
      · rw [foldl_hessStep_untouched rest _ k.1 k.2 huntouch]
        simp only [hessStep]
        by_cases hd : k.1 ≠ k.2
        · rw [if_pos hd]
          have hne : ((k.1 : ℕ), k.2) ≠ (k.2, k.1) := by
            intro he2
            rw [Prod.mk.injEq] at he2
            exact hd he2.1
          rw [blockOf_writeBlock_ne _ _ _ _ k.1 k.2 hne]
          exact blockOf_writeBlock_same H k.1 k.2 B
        · rw [if_neg hd]
          exact blockOf_writeBlock_same H k.1 k.2 B
      · intro hd
        rw [foldl_hessStep_untouched rest _ k.2 k.1 huntouch2]
        simp only [hessStep]
        rw [if_pos hd]
        exact blockOf_writeBlock_same _ k.2 k.1 (transposeM B)
    · have hstep := ih (hessStep H kv) k B hrest hmem2
      exact hstep

/-- C5: materializing the accumulated Hessian writes each block keyed
(i, j) at rows 3i..3i+2 and columns 3j..3j+2 of the global matrix, and for
an off-diagonal key also writes the transposed block at the mirrored
position, so the mirrored block equals the transpose of the computed block.
The keys are assumed pairwise distinct as unordered pairs, which is the
situation the design document describes: one direction per edge, the
mirror structural. -/
theorem C5_hessian_block_placement
    (items : List ((ℕ × ℕ) × (Fin 3 → Fin 3 → ℝ)))
    (hpw : (items.map Prod.fst).Pairwise fun u v => u ≠ v ∧ u ≠ (v.2, v.1))
    (k : ℕ × ℕ) (B : Fin 3 → Fin 3 → ℝ) (hmem : (k, B) ∈ items) :
    blockOf (populate_hessian items) k.1 k.2 = B ∧
    (k.1 ≠ k.2 → blockOf (populate_hessian items) k.2 k.1 = transposeM B) :=
  populate_hessian_aux items (fun _ _ => 0) k B hpw hmem

/-- C5 witness: a single accumulated off-diagonal block at key (0, 1) lands
in block (0, 1) and its transpose in block (1, 0). -/
theorem C5_hessian_block_placement_witness :
    (([((0, 1), B0)].map Prod.fst).Pairwise fun u v : ℕ × ℕ =>
        u ≠ v ∧ u ≠ (v.2, v.1)) ∧
    ((0, 1), B0) ∈ [((0, 1), B0)] ∧
    blockOf (populate_hessian [((0, 1), B0)]) 0 1 = B0 ∧
    ((0 : ℕ) ≠ 1 → blockOf (populate_hessian [((0, 1), B0)]) 1 0 = transposeM B0) := by
  refine ⟨by simp, by simp, ?_⟩
  exact C5_hessian_block_placement [((0, 1), B0)] (by simp) (0, 1) B0 (by simp)

/-! ## The convergence check of the iteration loop -/

/-- The solver-call counter never decreases along the loop: an early
converged return carries at least the count it started with. -/
lemma optLoop_converged_calls_le (assemble : List Pose → SysEval)
    (solve : (ℕ → ℕ → ℝ) → (ℕ → ℝ) → ℕ → ℝ) (tol : ℝ) (fix : Bool) :
    ∀ (fuel i : ℕ) (prev : ℝ) (ps : List Pose) (calls : ℕ)
      (ps2 : List Pose) (c2 : ℝ) (calls2 : ℕ),
      optLoop assemble solve tol fix fuel i prev ps calls =
        LoopOut.converged ps2 c2 calls2 →
      calls ≤ calls2 := by
  intro fuel
  induction fuel with
  | zero =>
    intro i prev ps calls ps2 c2 calls2 h
    simp [optLoop] at h
  | succ m ih =>
    intro i prev ps calls ps2 c2 calls2 h
    simp only [optLoop] at h
    split_ifs at h with hc
    · rw [LoopOut.converged.injEq] at h
      omega
    · exact le_trans (Nat.le_succ calls) (ih _ _ _ _ _ _ _ h)

/-- One loop step when the convergence condition fails: evaluate, record
the chi2 as prev, patch, solve, retract, continue. -/
lemma optLoop_succ_step (assemble : List Pose → SysEval)
    (solve : (ℕ → ℕ → ℝ) → (ℕ → ℝ) → ℕ → ℝ) (tol : ℝ) (fix : Bool)
    (fuel i : ℕ) (prev : ℝ) (ps : List Pose) (calls : ℕ)
    (hno : ¬ (0 < i ∧ (assemble ps).chi2 < prev ∧
      (prev - (assemble ps).chi2) / (prev + EPS) < tol)) :
    optLoop assemble solve tol fix (fuel + 1) i prev ps calls =
      optLoop assemble solve tol fix fuel (i + 1) (assemble ps).chi2
        (iterStep solve fix (assemble ps) ps) (calls + 1) := by
  simp only [optLoop]
  rw [if_neg hno]

/-- C1: at every iteration i greater than 0, the loop returns converged at
that iteration exactly when the freshly evaluated chi2 is strictly below
the previous chi2 and the relative change (prev - chi2) / (prev + EPS) is
below the tolerance; when chi2 increased, the loop never stops there but
continues with the next iteration. -/
theorem C1_convergence_check (assemble : List Pose → SysEval)
    (solve : (ℕ → ℕ → ℝ) → (ℕ → ℝ) → ℕ → ℝ) (tol : ℝ) (fix : Bool)
    (fuel i : ℕ) (prev : ℝ) (ps : List Pose) (calls : ℕ) (hi : 0 < i) :
    (optLoop assemble solve tol fix (fuel + 1) i prev ps calls =
        LoopOut.converged ps (assemble ps).chi2 calls ↔
      ((assemble ps).chi2 < prev ∧
        (prev - (assemble ps).chi2) / (prev + EPS) < tol)) ∧
    (prev < (assemble ps).chi2 →
      optLoop assemble solve tol fix (fuel + 1) i prev ps calls =
        optLoop assemble solve tol fix fuel (i + 1) (assemble ps).chi2
          (iterStep solve fix (assemble ps) ps) (calls + 1)) := by
  constructor
  · constructor
    · intro heq
      by_contra hnot
      have hstep : optLoop assemble solve tol fix (fuel + 1) i prev ps calls =
          optLoop assemble solve tol fix fuel (i + 1) (assemble ps).chi2
            (iterStep solve fix (assemble ps) ps) (calls + 1) := by
        simp only [optLoop]
        rw [if_neg fun hc => hnot ⟨hc.2.1, hc.2.2⟩]
      rw [hstep] at heq
      have := optLoop_converged_calls_le assemble solve tol fix fuel (i + 1)
        (assemble ps).chi2 (iterStep solve fix (assemble ps) ps) (calls + 1)
        ps (assemble ps).chi2 calls heq
      omega
    · intro hcond
      simp only [optLoop]
      rw [if_pos ⟨hi, hcond.1, hcond.2⟩]
  · intro hinc
    simp only [optLoop]
    rw [if_neg fun hc => absurd hc.2.1 (not_lt.mpr (le_of_lt hinc))]

/-- C1 witness: a loop state at iteration 1 with previous chi2 equal to 1
and a zero evaluation, to which the characterization applies. -/
theorem C1_convergence_check_witness :
    0 < 1 ∧
    ((optLoop asm0 solve0 1 true (0 + 1) 1 1 ps0 0 =
        LoopOut.converged ps0 (asm0 ps0).chi2 0 ↔
      ((asm0 ps0).chi2 < 1 ∧
        (1 - (asm0 ps0).chi2) / (1 + EPS) < 1)) ∧
    (1 < (asm0 ps0).chi2 →
      optLoop asm0 solve0 1 true (0 + 1) 1 1 ps0 0 =
        optLoop asm0 solve0 1 true 0 (1 + 1) (asm0 ps0).chi2
          (iterStep solve0 true (asm0 ps0) ps0) (0 + 1))) :=
  ⟨Nat.one_pos, C1_convergence_check asm0 solve0 1 true 0 1 1 ps0 0 Nat.one_pos⟩

/-! ## The gauge fix pins the first pose -/

/-- The patched Hessian has identity first rows. -/
lemma firstRowsId_patchH (H : ℕ → ℕ → ℝ) : FirstRowsId (patchH H) := by
  intro r c hr
  simp only [patchH, addEye, zeroCols, zeroRows]
  by_cases hc : c < 3
  · rw [if_pos ⟨hr, hc⟩, if_pos hc]
    by_cases hrc : r = c
    · subst hrc
      simp
    · rw [if_neg hrc, if_neg fun h => hrc h.symm, zero_add]
  · have hcr : ¬ c = r := by omega
    rw [if_neg fun h => hc h.2, if_neg hc, if_pos hr, if_neg hcr]

/-- Against a matrix with identity first rows, the row product returns the
vector entry itself. -/
lemma mulVec_firstRowsId {N r : ℕ} (H : ℕ → ℕ → ℝ) (x : ℕ → ℝ)
    (hH : FirstRowsId H) (hr : r < 3) (hrN : r < N) :
    mulVec N H x r = x r := by
  unfold mulVec
  have h1 : (∑ c ∈ Finset.range N, H r c * x c)
      = ∑ c ∈ Finset.range N, (if c = r then x c else 0) :=
    Finset.sum_congr rfl fun c _ => by
      rw [hH r c hr]
      split_ifs <;> ring
  rw [h1, Finset.sum_ite_eq' (Finset.range N) r x, if_pos (Finset.mem_range.mpr hrN)]

/-- If the solver is exact on the first three rows, the step computed from
the patched system is zero in its first three entries. -/
lemma solve_patched_first_zero {n : ℕ}
    (solve : (ℕ → ℕ → ℝ) → (ℕ → ℝ) → ℕ → ℝ)
    (hsolve : ∀ H g, FirstRowsId H → ∀ r, r < 3 →
      mulVec (3 * n) H (solve H g) r = g r)
    (hn : 0 < n) (X : ℕ → ℕ → ℝ) (g : ℕ → ℝ) :
    ∀ r, r < 3 → solve (patchH X) (fun k => -(patchG g k)) r = 0 := by
  intro r hr
  have h := hsolve (patchH X) (fun k => -(patchG g k)) (firstRowsId_patchH X) r hr
  rw [mulVec_firstRowsId (patchH X) _ (firstRowsId_patchH X) hr (by omega)] at h
  rw [h]
  simp [patchG, hr]

/-- With the gauge fix on, one iteration step keeps the head of the pose
list fixed whenever its heading is already in the wrap range and the solver
is exact on the first rows. -/
lemma iterStep_head_fixed {n : ℕ}
    (solve : (ℕ → ℕ → ℝ) → (ℕ → ℝ) → ℕ → ℝ)
    (hsolve : ∀ H g, FirstRowsId H → ∀ r, r < 3 →
      mulVec (3 * n) H (solve H g) r = g r)
    (hn : 0 < n) (s : SysEval) (p : Pose) (t : List Pose)
    (hth1 : -Real.pi ≤ p.theta) (hth2 : p.theta ≤ Real.pi) :
    (iterStep solve true s (p :: t)).head? = some p := by
  have hz := solve_patched_first_zero solve hsolve hn s.hess s.grad
  simp only [iterStep, if_pos, retractAll]
  have e0 : 3 * 0 = 0 := rfl
  have e1 : 3 * 0 + 1 = 1 := rfl
  have e2 : 3 * 0 + 2 = 2 := rfl
  rw [e0, e1, e2, hz 0 (by omega), hz 1 (by omega), hz 2 (by omega)]
  simp only [List.head?_cons, Option.some.injEq]
  show (⟨p.x + 0, p.y + 0, warp2pi (p.theta + 0)⟩ : Pose) = p
  rw [add_zero, add_zero, add_zero, warp2pi_eq_self hth1 hth2]

/-- Along the whole loop with the gauge fix on, the head pose never
changes. -/
lemma optLoop_head_invariant (assemble : List Pose → SysEval)
    (solve : (ℕ → ℕ → ℝ) → (ℕ → ℝ) → ℕ → ℝ) (tol : ℝ) {n : ℕ} (p : Pose)
    (hth1 : -Real.pi ≤ p.theta) (hth2 : p.theta ≤ Real.pi) (hn : 0 < n)
    (hsolve : ∀ H g, FirstRowsId H → ∀ r, r < 3 →
      mulVec (3 * n) H (solve H g) r = g r) :
    ∀ (fuel i : ℕ) (prev : ℝ) (ps : List Pose) (calls : ℕ),
      ps.head? = some p →
      (optLoop assemble solve tol true fuel i prev ps calls).poses.head?
        = some p := by
  intro fuel
  induction fuel with
  | zero =>
    intro i prev ps calls hps
    simpa [optLoop, LoopOut.poses] using hps
  | succ m ih =>
    intro i prev ps calls hps
    simp only [optLoop]
    split_ifs with hc
    · simpa [LoopOut.poses] using hps
    · apply ih
      cases ps with
      | nil => simp at hps
      | cons q t =>
        have hq : q = p := by simpa using hps
        subst hq
        exact iterStep_head_fixed solve hsolve hn (assemble (q :: t)) q t hth1 hth2

/-- C2: one optimize call with fix_first_pose on a graph whose first vertex
has a wrapped heading leaves the first pose exactly unchanged, for every
iteration budget, tolerance and evaluation, provided the external solver
returns exact solutions on the patched rows. -/
theorem C2_first_pose_unchanged (assemble : List Pose → SysEval)
    (edgeChi2s : List Pose → List ℝ)
    (solve : (ℕ → ℕ → ℝ) → (ℕ → ℝ) → ℕ → ℝ)
    (tol : ℝ) (maxIter : ℕ) (ps : List Pose) (p : Pose)
    (hp : ps.head? = some p)
    (hth1 : -Real.pi ≤ p.theta) (hth2 : p.theta ≤ Real.pi)
    (hsolve : ∀ H g, FirstRowsId H → ∀ r, r < 3 →
      mulVec (3 * ps.length) H (solve H g) r = g r) :
    (optimize assemble edgeChi2s solve tol maxIter true ps).poses.head?
      = some p := by
  have hn : 0 < ps.length := by
    cases ps with
    | nil => simp at hp
    | cons q t => simp
  have hloop := optLoop_head_invariant assemble solve tol p hth1 hth2 hn hsolve
    maxIter 0 (-1) ps 0 hp
  unfold optimize
  cases hout : optLoop assemble solve tol true maxIter 0 (-1) ps 0 with
  | converged ps2 c calls =>
    rw [hout] at hloop
    simpa [LoopOut.poses] using hloop
  | exhausted ps2 prev calls =>
    rw [hout] at hloop
    simp only [LoopOut.poses] at hloop
    cases hcc : calc_chi2 (edgeChi2s ps2) with
    | error e => simp [hcc, hloop]
    | ok c =>
      by_cases hmi : maxIter = 0 <;> simp [hcc, hmi, hloop]

/-- C2 witness: the theorem applied to the one-pose graph at the origin
with the pass-through solver. -/
theorem C2_first_pose_unchanged_witness :
    (ps0.head? = some ⟨0, 0, 0⟩) ∧
    (-Real.pi ≤ (Pose.mk 0 0 0).theta) ∧ ((Pose.mk 0 0 0).theta ≤ Real.pi) ∧
    (∀ H g, FirstRowsId H → ∀ r, r < 3 →
      mulVec (3 * ps0.length) H (solve0 H g) r = g r) ∧
    (optimize asm0 (fun _ => []) solve0 1 2 true ps0).poses.head?
      = some ⟨0, 0, 0⟩ := by
  have hpi := Real.pi_pos
  have hth1 : -Real.pi ≤ (Pose.mk 0 0 0).theta := by
    show -Real.pi ≤ (0 : ℝ)
    linarith
  have hth2 : (Pose.mk 0 0 0).theta ≤ Real.pi := le_of_lt hpi
  have hs : ∀ H g, FirstRowsId H → ∀ r, r < 3 →
      mulVec (3 * ps0.length) H (solve0 H g) r = g r := by
    intro H g hH r hr
    exact mulVec_firstRowsId H g hH hr (by simp [ps0]; omega)
  exact ⟨rfl, hth1, hth2, hs,
    C2_first_pose_unchanged asm0 (fun _ => []) solve0 1 2 ps0 ⟨0, 0, 0⟩ rfl
      hth1 hth2 hs⟩

/-! ## The degenerate edgeless graph -/

/-- With no edges the evaluated chi2 is zero at every pose estimate. -/
lemma assembleOfEdges_empty_chi2 (ps : List Pose) :
    (assembleOfEdges (fun _ => []) ps).chi2 = 0 := rfl

/-- With no edges, chi2 stays 0 and the strict-decrease test 0 < 0 never
passes, so the loop burns all its fuel, calling the solver once per
iteration. -/
lemma optLoop_no_edges_exhausts
    (solve : (ℕ → ℕ → ℝ) → (ℕ → ℝ) → ℕ → ℝ) (tol : ℝ) :
    ∀ (fuel i : ℕ) (ps : List Pose) (calls : ℕ), ∃ ps2,
      optLoop (assembleOfEdges fun _ => []) solve tol true fuel i 0 ps calls =
        LoopOut.exhausted ps2 0 (calls + fuel) := by
  intro fuel
  induction fuel with
  | zero =>
    intro i ps calls
    exact ⟨ps, by simp [optLoop]⟩
  | succ m ih =>
    intro i ps calls
    obtain ⟨ps2, h2⟩ := ih (i + 1)
      (iterStep solve true (assembleOfEdges (fun _ => []) ps) ps) (calls + 1)
    refine ⟨ps2, ?_⟩
    simp only [optLoop]
    rw [if_neg]
    · rw [assembleOfEdges_empty_chi2, h2]
      congr 1
      omega
    · intro hcond
      have hchi : (assembleOfEdges (fun _ => []) ps).chi2 = 0 := rfl
      rw [hchi] at hcond
      exact lt_irrefl 0 hcond.2.1

/-- C7: on a graph with one vertex and no edges, optimize with the default
budget of 40 iterations does not stop early and does not finish cleanly:
the strict-decrease convergence test 0 < 0 never passes, the solver is
invoked in all 40 iterations, and the final calc_chi2 raises TypeError
because the sum over the empty edge generator is the integer 0, which
cannot be indexed with [0, 0]. -/
theorem C7_edgeless_graph_runs_solver_then_raises
    (solve : (ℕ → ℕ → ℝ) → (ℕ → ℝ) → ℕ → ℝ) (tol : ℝ) (ps : List Pose) :
    (optimize (assembleOfEdges fun _ => []) (fun _ => []) solve tol 40
        true ps).err = some PyErr.typeError ∧
    (optimize (assembleOfEdges fun _ => []) (fun _ => []) solve tol 40
        true ps).solverCalls = 40 ∧
    (optimize (assembleOfEdges fun _ => []) (fun _ => []) solve tol 40
        true ps).converged = false := by
  obtain ⟨ps2, h2⟩ := optLoop_no_edges_exhausts solve tol 39 1
    (iterStep solve true (assembleOfEdges (fun _ => []) ps) ps) 1
  have h0 : optLoop (assembleOfEdges fun _ => []) solve tol true 40 0 (-1) ps 0 =
      LoopOut.exhausted ps2 0 40 := by
    rw [show (40 : ℕ) = 39 + 1 from rfl,
      optLoop_succ_step (assembleOfEdges fun _ => []) solve tol true 39 0
        (-1) ps 0 fun hcond => absurd hcond.1 (lt_irrefl 0),
      assembleOfEdges_empty_chi2, h2]
  unfold optimize
  rw [h0]
  exact ⟨rfl, rfl, rfl⟩

/-! ## Zero iteration budget -/

/-- C10: optimize with maxIterations = 0 never returns normally on any
graph: the loop body never runs, no solver call happens, the poses are
untouched, and the final reporting step raises an error; with at least one
edge it is the NameError from reading the unbound loop variable, and on an
edgeless graph calc_chi2 raises TypeError even before that line. -/
theorem C10_zero_iterations (assemble : List Pose → SysEval)
    (edgeChi2s : List Pose → List ℝ)
    (solve : (ℕ → ℕ → ℝ) → (ℕ → ℝ) → ℕ → ℝ)
    (tol : ℝ) (fix : Bool) (ps : List Pose) :
    (optimize assemble edgeChi2s solve tol 0 fix ps).solverCalls = 0 ∧
    (optimize assemble edgeChi2s solve tol 0 fix ps).poses = ps ∧
    (optimize assemble edgeChi2s solve tol 0 fix ps).err ≠ none ∧
    (edgeChi2s ps = [] →
      (optimize assemble edgeChi2s solve tol 0 fix ps).err
        = some PyErr.typeError) ∧
    (edgeChi2s ps ≠ [] →
      (optimize assemble edgeChi2s solve tol 0 fix ps).err
        = some PyErr.nameError) := by
  have h0 : optLoop assemble solve tol fix 0 0 (-1) ps 0 =
      LoopOut.exhausted ps (-1) 0 := by
    simp [optLoop]
  unfold optimize
  rw [h0]
  cases hec : edgeChi2s ps with
  | nil => simp [calc_chi2, hec]
  | cons a l =>
    simp only [calc_chi2, hec]
    refine ⟨rfl, rfl, by simp, ?_, ?_⟩
    · intro h
      simp at h
    · intro _
      rfl

/-- C10 witness: the error is TypeError on the edgeless instantiation and
NameError once any edge chi2 value is present. -/
theorem C10_zero_iterations_witness :
    (optimize asm0 (fun _ => []) solve0 1 0 true ps0).err
        = some PyErr.typeError ∧
    (optimize asm0 (fun _ => [1]) solve0 1 0 true ps0).err
        = some PyErr.nameError :=
  ⟨(C10_zero_iterations asm0 (fun _ => []) solve0 1 true ps0).2.2.2.1 rfl,
   (C10_zero_iterations asm0 (fun _ => [1]) solve0 1 true ps0).2.2.2.2
     (by simp)⟩

end GraphSLAM
